import Mathlib

/-!
Verification of the watch-worthy excitement scorer.

The Python sources are embedded shallowly:
* records of the `winprobability` payload become `Play` (only the
  `homeWinPercentage` field matters to the core);
* Python floats are modelled as exact rationals (`ℚ`);
* raised exceptions become `Except` errors;
* the per-game skip-and-continue loops of the two ranking scripts become
  explicit batch functions.
-/

namespace WatchWorthy

/-- Models one record of the `winprobability` list handed to
`load_home_win_probabilities` (src/excitement.py line 19): a loosely-typed
mapping of which only the presence and value of the `homeWinPercentage`
key is relevant. -/
structure Play where
  homeWinPercentage : Option ℚ
deriving Repr, DecidableEq

/-- Projection used in statements, so records can be inspected after
indexing. -/
def hwp (p : Play) : Option ℚ :=
  p.homeWinPercentage

/-- Models the exceptions raised by `load_home_win_probabilities`
(src/excitement.py lines 23-32): the `KeyError` for a missing
`homeWinPercentage` key carries the record index, the `ValueError` for a
value outside [0,1] carries the record index, and the `ValueError` for an
empty payload carries no index. -/
inductive LoadError where
  | missingField (index : ℕ)
  | outOfRange (index : ℕ)
  | emptyInput
deriving Repr, DecidableEq

/-- Models the `ValueError` raised by `calculate_excitement` when fewer
than two samples are supplied (src/excitement.py lines 38-39). -/
inductive CalcError where
  | insufficientData
deriving Repr, DecidableEq

/-- Models the `ExcitementAnalysis` dataclass (src/excitement.py lines
9-16). -/
structure ExcitementAnalysis where
  score : ℚ
  verdict : String
  lead_changes : ℕ
  avg_swing : ℚ
  max_swing : ℚ
  close_ratio : ℚ
deriving Repr, DecidableEq

/-- A record that `load_home_win_probabilities` accepts: the key is
present and the value lies in [0,1]. -/
def okPlay (p : Play) : Prop :=
  ∃ v, hwp p = some v ∧ 0 ≤ v ∧ v ≤ 1

instance (p : Play) : Decidable (okPlay p) :=
  match h : hwp p with
  | none => .isFalse (by rintro ⟨w, hw, _, _⟩; rw [h] at hw; cases hw)
  | some v =>
    if hv : 0 ≤ v ∧ v ≤ 1 then .isTrue ⟨v, h, hv⟩
    else
      .isFalse (by
        rintro ⟨w, hw, h0, h1⟩
        rw [h] at hw
        injection hw with e
        subst e
        exact hv ⟨h0, h1⟩)

instance {ε α : Type} [DecidableEq ε] [DecidableEq α] : DecidableEq (Except ε α) := fun a b =>
  match a, b with
  | .error e, .error f => decidable_of_iff (e = f) (by simp)
  | .error _, .ok _ => .isFalse (by simp)
  | .ok _, .error _ => .isFalse (by simp)
  | .ok x, .ok y => decidable_of_iff (x = y) (by simp)

/-- Models the `for index, play in enumerate(source)` loop of
`load_home_win_probabilities` (src/excitement.py lines 22-30), started at
index `k`: the first record without the key raises the missing-field
error, the first out-of-range value raises the range error, otherwise the
values are collected in order. -/
def loadFrom : ℕ → List Play → Except LoadError (List ℚ)
  | _, [] => .ok []
  | index, play :: rest =>
    match hwp play with
    | none => .error (.missingField index)
    | some value =>
      if 0 ≤ value ∧ value ≤ 1 then
        match loadFrom (index + 1) rest with
        | .error e => .error e
        | .ok tailValues => .ok (value :: tailValues)
      else
        .error (.outOfRange index)

/-- Models `load_home_win_probabilities` (src/excitement.py lines 19-33):
run the extraction loop from index 0, then reject an empty result. -/
def load_home_win_probabilities (source : List Play) : Except LoadError (List ℚ) :=
  match loadFrom 0 source with
  | .error e => .error e
  | .ok probabilities =>
    if probabilities.isEmpty then .error .emptyInput else .ok probabilities

/-- Python's `abs` builtin on a rational. -/
def pyAbs (x : ℚ) : ℚ :=
  if x < 0 then -x else x

/-- Python's two-argument `min` builtin on rationals. -/
def pyMin (a b : ℚ) : ℚ :=
  if a ≤ b then a else b

/-- Python's two-argument `max` builtin on rationals. -/
def pyMax (a b : ℚ) : ℚ :=
  if b ≤ a then a else b

@[simp]
theorem pyAbs_eq (x : ℚ) : pyAbs x = |x| := by
  by_cases h : x < 0
  · rw [pyAbs, if_pos h, abs_of_neg h]
  · rw [pyAbs, if_neg h, abs_of_nonneg (le_of_not_lt h)]

@[simp]
theorem pyMin_eq (a b : ℚ) : pyMin a b = min a b := by
  by_cases h : a ≤ b
  · rw [pyMin, if_pos h, min_eq_left h]
  · rw [pyMin, if_neg h, min_eq_right (le_of_not_le h)]

@[simp]
theorem pyMax_eq (a b : ℚ) : pyMax a b = max a b := by
  by_cases h : b ≤ a
  · rw [pyMax, if_pos h, max_eq_left h]
  · rw [pyMax, if_neg h, max_eq_right (le_of_not_le h)]

/-- Models the `zip(probabilities, probabilities[1:])` comprehensions of
`calculate_excitement`: apply `f prev curr` to every adjacent pair. -/
def adjMap {α : Type} (f : ℚ → ℚ → α) (ps : List ℚ) : List α :=
  (ps.zip ps.tail).map (fun pc => f pc.1 pc.2)

/-- Models the `swings` list of `calculate_excitement` (src/excitement.py
lines 41-43): absolute differences of adjacent samples. -/
def swingsOf (ps : List ℚ) : List ℚ :=
  adjMap (fun prev curr => pyAbs (curr - prev)) ps

/-- Models the generator inside the `lead_changes` sum (src/excitement.py
lines 47-51): for each adjacent pair, whether `(prev >= 0.5) != (curr >= 0.5)`. -/
def leadPairsOf (ps : List ℚ) : List Bool :=
  adjMap (fun prev curr => decide ((1/2 : ℚ) ≤ prev) != decide ((1/2 : ℚ) ≤ curr)) ps

/-- Models `lead_changes` (src/excitement.py lines 47-51): the number of
adjacent pairs whose leading side flips. -/
def leadChangesOf (ps : List ℚ) : ℕ :=
  (leadPairsOf ps).count true

/-- Models the numerator of `close_ratio` (src/excitement.py line 52):
how many samples lie in the closed band [0.45, 0.55]. -/
def closeCount (ps : List ℚ) : ℕ :=
  ps.countP (fun p => decide ((9/20 : ℚ) ≤ p ∧ p ≤ 11/20))

/-- Models Python's `max(swings)` (src/excitement.py line 46). The list
it is applied to consists of absolute values, so every element is
nonnegative and seeding the fold with 0 returns exactly the maximum
element of the nonempty list. -/
def listMax (l : List ℚ) : ℚ :=
  l.foldr pyMax 0

/-- Models `avg_swing = total_swing / len(swings)` (src/excitement.py
lines 44-45). -/
def avgSwingOf (ps : List ℚ) : ℚ :=
  (swingsOf ps).sum / ((swingsOf ps).length : ℚ)

/-- Models `max_swing = max(swings)` (src/excitement.py line 46). -/
def maxSwingOf (ps : List ℚ) : ℚ :=
  listMax (swingsOf ps)

/-- Models `close_ratio` (src/excitement.py lines 52-54): fraction of all
samples inside the toss-up band. -/
def closeRatioOf (ps : List ℚ) : ℚ :=
  (closeCount ps : ℚ) / (ps.length : ℚ)

/-- Models the composite `score` (src/excitement.py lines 56-62): four
clamped linear ramps with weights 2.5, 2.5, 3.0, 2.0, then a ceiling of
10.0. The float constants 0.04, 0.18, 0.45 are the exact rationals 1/25,
9/50, 9/20. -/
def scoreOf (ps : List ℚ) : ℚ :=
  pyMin
    (pyMin (avgSwingOf ps / (1/25)) 1 * (5/2)
      + pyMin (maxSwingOf ps / (9/50)) 1 * (5/2)
      + pyMin ((leadChangesOf ps : ℚ) / 3) 1 * 3
      + pyMin (closeRatioOf ps / (9/20)) 1 * 2)
    10

/-- Models the verdict thresholds (src/excitement.py lines 64-69),
evaluated on the clamped score. -/
def verdictOf (ps : List ℚ) : String :=
  if (13/2 : ℚ) ≤ scoreOf ps then "Exciting"
  else if (4 : ℚ) ≤ scoreOf ps then "Worth a look"
  else "Skip it"

/-- The record built at src/excitement.py lines 71-78 on the success
path of `calculate_excitement`. -/
def analyze (ps : List ℚ) : ExcitementAnalysis :=
  ⟨scoreOf ps, verdictOf ps, leadChangesOf ps, avgSwingOf ps, maxSwingOf ps, closeRatioOf ps⟩

/-- Models `calculate_excitement` (src/excitement.py lines 36-78): reject
series shorter than two samples, otherwise build the analysis record. -/
def calculate_excitement (probabilities : List ℚ) : Except CalcError ExcitementAnalysis :=
  if probabilities.length < 2 then .error .insufficientData
  else .ok (analyze probabilities)

/-- The reasons a game is skipped by the daily ranker (the
`except (KeyError, ValueError)` arm at src/daily_exciting_games.py lines
125-127 catches both the validator's and the scorer's errors). -/
inductive SkipReason where
  | loadFailed (e : LoadError)
  | calcFailed (e : CalcError)
deriving Repr, DecidableEq

/-- Models the scoring of one game inside `analyze_game`
(src/daily_exciting_games.py lines 84-85): validate, then score. -/
def scoreGame (plays : List Play) : Except SkipReason ExcitementAnalysis :=
  match load_home_win_probabilities plays with
  | .error e => .error (.loadFailed e)
  | .ok ps =>
    match calculate_excitement ps with
    | .error e => .error (.calcFailed e)
    | .ok a => .ok a

/-- Models the per-game loop of `daily_exciting_games.main`
(src/daily_exciting_games.py lines 118-130): each game is scored inside a
try; a failure records a skip reason and the loop continues, a success is
appended to the results. Returns results and skips, each in input order. -/
def processBatch (games : List (String × List Play)) :
    List (String × ExcitementAnalysis) × List (String × SkipReason) :=
  match games with
  | [] => ([], [])
  | (key, plays) :: rest =>
    let done := processBatch rest
    match scoreGame plays with
    | .ok a => ((key, a) :: done.1, done.2)
    | .error r => (done.1, (key, r) :: done.2)

/-- Models the per-game loop of `generate_weekly_plots.main`
(src/generate_weekly_plots.py lines 286-293): only the call to
`load_home_win_probabilities` sits inside the `except (KeyError,
ValueError)` arm; `calculate_excitement` is called outside the try, so a
scoring error propagates out of the loop and aborts the whole batch. -/
def processBatchWeekly (games : List (String × List Play)) :
    Except CalcError (List (String × ExcitementAnalysis) × List (String × LoadError)) :=
  match games with
  | [] => .ok ([], [])
  | (key, plays) :: rest =>
    match load_home_win_probabilities plays with
    | .error e =>
      match processBatchWeekly rest with
      | .error c => .error c
      | .ok done => .ok (done.1, (key, e) :: done.2)
    | .ok ps =>
      match calculate_excitement ps with
      | .error c => .error c
      | .ok a =>
        match processBatchWeekly rest with
        | .error c => .error c
        | .ok done => .ok ((key, a) :: done.1, done.2)

/-- Models the stable insertion step of Python's
`results.sort(key=lambda item: item["analysis"].score, reverse=True)`
(src/daily_exciting_games.py line 136, src/generate_weekly_plots.py lines
337-338): a game is placed after every already-ranked game whose score is
at least as large, so equal scores keep their earlier relative order. -/
def insertRanked (x : String × ExcitementAnalysis) :
    List (String × ExcitementAnalysis) → List (String × ExcitementAnalysis)
  | [] => [x]
  | y :: ys =>
    if ExcitementAnalysis.score y.2 ≤ ExcitementAnalysis.score x.2 then x :: y :: ys
    else y :: insertRanked x ys

/-- Models Python's stable sort by score descending: games are inserted
in input order, each after the already-placed games of score at least its
own. -/
def rankGames : List (String × ExcitementAnalysis) → List (String × ExcitementAnalysis)
  | [] => []
  | x :: xs => insertRanked x (rankGames xs)

/-- One date's ranking pipeline of `daily_exciting_games.main`: score the
batch, drop failures, sort the survivors by score descending with the
stable sort. -/
def rankBatch (games : List (String × List Play)) : List (String × ExcitementAnalysis) :=
  rankGames (processBatch games).1

/-- The end-to-end scenario series of spec section 8:
[0.5, 0.52, 0.48, 0.9, 0.85]. -/
def c1series : List ℚ :=
  [1/2, 13/25, 12/25, 9/10, 17/20]

/-- C1 counterexample: on [0.5, 0.52, 0.48, 0.9, 0.85] the code does not
produce the record claimed by the spec (lead_changes 1, score 8.0):
the pair 0.52 → 0.48 also crosses the 0.5 boundary, so the code counts
two lead changes and scores 9.0. -/
theorem c1_scenario_counterexample :
    ¬(calculate_excitement c1series =
        Except.ok ⟨8, "Exciting", 1, 53/400, 21/50, 3/5⟩ ∧
      swingsOf c1series = [1/50, 1/25, 21/50, 1/20]) := by
  norm_num [calculate_excitement, analyze, c1series, scoreOf, verdictOf, avgSwingOf,
    maxSwingOf, closeRatioOf, swingsOf, leadPairsOf, leadChangesOf, closeCount,
    listMax, adjMap, pyAbs, pyMin, pyMax]

/-- C1 amended: on [0.5, 0.52, 0.48, 0.9, 0.85] the swings are
[0.02, 0.04, 0.42, 0.05], avg_swing = 0.1325, max_swing = 0.42,
lead_changes = 2 (0.52 → 0.48 and 0.48 → 0.9 both cross 0.5),
close_ratio = 3/5, the composite score is 9.0 and the verdict is
"Exciting". -/
theorem c1_scenario :
    calculate_excitement c1series =
      Except.ok ⟨9, "Exciting", 2, 53/400, 21/50, 3/5⟩ ∧
    swingsOf c1series = [1/50, 1/25, 21/50, 1/20] := by
  constructor
  · norm_num [calculate_excitement, analyze, c1series, scoreOf, verdictOf, avgSwingOf,
      maxSwingOf, closeRatioOf, swingsOf, leadPairsOf, leadChangesOf, closeCount,
      listMax, adjMap, pyAbs, pyMin, pyMax]
  · norm_num [swingsOf, adjMap, c1series, pyAbs]

/-- Length of an adjacent-pair map: one fewer than the series length. -/
theorem adjMap_length {α : Type} (f : ℚ → ℚ → α) (ps : List ℚ) :
    (adjMap f ps).length = ps.length - 1 := by
  simp only [adjMap, List.length_map, List.length_zip, List.length_tail]
  omega

/-- Entry `i` of an adjacent-pair map is the pair of samples `i` and
`i + 1`. -/
theorem adjMap_getD {α : Type} (f : ℚ → ℚ → α) (d : α) (e : ℚ) (ps : List ℚ) (i : ℕ)
    (h : i < ps.length - 1) :
    (adjMap f ps).getD i d = f (ps.getD i e) (ps.getD (i + 1) e) := by
  have hz : i < (adjMap f ps).length := by rw [adjMap_length]; omega
  have hi : i < ps.length := by omega
  have hi1 : i + 1 < ps.length := by omega
  rw [List.getD_eq_getElem _ _ hz, List.getD_eq_getElem _ _ hi, List.getD_eq_getElem _ _ hi1]
  simp only [adjMap, List.getElem_map, List.getElem_zip, List.getElem_tail]

/-- The fold modelling Python's `max` never goes below its seed 0. -/
theorem listMax_nonneg (l : List ℚ) : 0 ≤ listMax l := by
  induction l with
  | nil => exact le_refl 0
  | cons a t ih =>
    rw [listMax, List.foldr_cons, pyMax_eq]
    exact le_trans ih (le_max_right a _)

/-- Every element of the list is bounded by `listMax`. -/
theorem le_listMax {l : List ℚ} {x : ℚ} (hx : x ∈ l) : x ≤ listMax l := by
  induction l with
  | nil => cases hx
  | cons a t ih =>
    rw [listMax, List.foldr_cons, pyMax_eq]
    rcases List.mem_cons.mp hx with rfl | hmem
    · exact le_max_left _ _
    · exact le_trans (ih hmem) (le_max_right _ _)

/-- A nonnegative upper bound of all elements also bounds `listMax`. -/
theorem listMax_le {l : List ℚ} {b : ℚ} (hb : 0 ≤ b) (h : ∀ x ∈ l, x ≤ b) :
    listMax l ≤ b := by
  induction l with
  | nil => exact hb
  | cons a t ih =>
    rw [listMax, List.foldr_cons, pyMax_eq]
    exact max_le (h a (List.mem_cons_self a t)) (ih (fun x hx => h x (List.mem_cons_of_mem a hx)))

/-- On a nonempty list of nonnegative values, `listMax` is attained, so
it is exactly Python's `max` of the list. -/
theorem listMax_mem {l : List ℚ} : l ≠ [] → (∀ x ∈ l, 0 ≤ x) → listMax l ∈ l := by
  induction l with
  | nil => exact fun hne _ => absurd rfl hne
  | cons a t ih =>
    intro _ h0
    rw [listMax, List.foldr_cons, pyMax_eq]
    rcases eq_or_ne t [] with rfl | hte
    · rw [List.foldr_nil, max_eq_left (h0 a (List.mem_cons_self a _))]
      exact List.mem_cons_self a _
    · have hmem := ih hte (fun x hx => h0 x (List.mem_cons_of_mem a hx))
      rcases max_choice a (t.foldr pyMax 0) with hc | hc
      · rw [hc]; exact List.mem_cons_self a _
      · rw [hc]; exact List.mem_cons_of_mem a hmem

/-- C6: `calculate_excitement` fails with the insufficient-data error
exactly when the series has fewer than two samples, and succeeds on every
series of length at least two. -/
theorem c6_insufficient_data_iff (ps : List ℚ) :
    (calculate_excitement ps = .error .insufficientData ↔ ps.length < 2) ∧
    (2 ≤ ps.length → ∃ a, calculate_excitement ps = .ok a) := by
  refine ⟨⟨fun h => ?_, fun h => ?_⟩, fun h2 => ⟨analyze ps, ?_⟩⟩
  · by_contra hlen
    rw [calculate_excitement, if_neg hlen] at h
    cases h
  · rw [calculate_excitement, if_pos h]
  · rw [calculate_excitement, if_neg (by omega)]

/-- C6 witness: the singleton series [0.5] is rejected, a two-sample
series is scored. -/
theorem c6_insufficient_data_iff_witness :
    ((calculate_excitement [(1 : ℚ)/2] = .error .insufficientData ↔
        [(1 : ℚ)/2].length < 2) ∧
      (2 ≤ [(1 : ℚ)/2].length → ∃ a, calculate_excitement [(1 : ℚ)/2] = .ok a)) ∧
    ((calculate_excitement [(1 : ℚ)/2, 1/4] = .error .insufficientData ↔
        [(1 : ℚ)/2, 1/4].length < 2) ∧
      (2 ≤ [(1 : ℚ)/2, 1/4].length → ∃ a, calculate_excitement [(1 : ℚ)/2, 1/4] = .ok a)) :=
  ⟨c6_insufficient_data_iff [1/2], c6_insufficient_data_iff [1/2, 1/4]⟩

/-- A successful run of the extraction loop keeps every record in order:
the output has the input's length and position `i` holds exactly the
value stored in record `i`. -/
theorem loadFrom_ok {source : List Play} : ∀ {k : ℕ} {ps : List ℚ},
    loadFrom k source = .ok ps →
    ps.length = source.length ∧
    ∀ i, i < source.length → hwp (source.getD i ⟨none⟩) = some (ps.getD i 0) := by
  induction source with
  | nil =>
    intro k ps h
    cases h
    exact ⟨rfl, fun i hi => absurd hi (by simp)⟩
  | cons p rest ih =>
    intro k ps h
    cases hp : hwp p with
    | none =>
      simp only [loadFrom, hp] at h
      exact Except.noConfusion h
    | some v =>
      simp only [loadFrom, hp] at h
      by_cases hv : 0 ≤ v ∧ v ≤ 1
      · rw [if_pos hv] at h
        cases hrest : loadFrom (k + 1) rest with
        | error e =>
          simp only [hrest] at h
          exact Except.noConfusion h
        | ok tl =>
          simp only [hrest] at h
          cases h
          obtain ⟨hlen, hval⟩ := ih hrest
          refine ⟨by simp [hlen], fun i hi => ?_⟩
          cases i with
          | zero => simpa using hp
          | succ j =>
            simp only [List.getD_cons_succ]
            exact hval j (by simpa using hi)
      · rw [if_neg hv] at h
        cases h

/-- When record `i` lacks the probability key and every earlier record is
valid, the extraction loop started at `k` stops with the missing-field
error for absolute index `k + i`. -/
theorem loadFrom_missing {source : List Play} : ∀ {k i : ℕ},
    i < source.length → hwp (source.getD i ⟨none⟩) = none →
    (∀ j, j < i → okPlay (source.getD j ⟨none⟩)) →
    loadFrom k source = .error (.missingField (k + i)) := by
  induction source with
  | nil => intro k i hi _ _; exact absurd hi (by simp)
  | cons p rest ih =>
    intro k i hi hnone hprev
    cases i with
    | zero =>
      simp only [List.getD_cons_zero] at hnone
      simp only [loadFrom, hnone, Nat.add_zero]
    | succ j =>
      obtain ⟨v, hv, h0, h1⟩ : okPlay p := by simpa using hprev 0 (Nat.succ_pos j)
      simp only [loadFrom, hv]
      rw [if_pos ⟨h0, h1⟩]
      have hrec := ih (k := k + 1) (i := j) (by simpa using hi) (by simpa using hnone)
        (fun m hm => by simpa using hprev (m + 1) (by omega))
      simp only [hrec]
      have harith : k + 1 + j = k + (j + 1) := by omega
      rw [harith]

/-- When record `i` carries a value outside [0,1] and every earlier
record is valid, the extraction loop started at `k` stops with the
out-of-range error for absolute index `k + i`. -/
theorem loadFrom_out_of_range {source : List Play} : ∀ {k i : ℕ} {v : ℚ},
    i < source.length → hwp (source.getD i ⟨none⟩) = some v → ¬(0 ≤ v ∧ v ≤ 1) →
    (∀ j, j < i → okPlay (source.getD j ⟨none⟩)) →
    loadFrom k source = .error (.outOfRange (k + i)) := by
  induction source with
  | nil => intro k i v hi _ _ _; exact absurd hi (by simp)
  | cons p rest ih =>
    intro k i v hi hsome hbad hprev
    cases i with
    | zero =>
      simp only [List.getD_cons_zero] at hsome
      simp only [loadFrom, hsome, Nat.add_zero]
      rw [if_neg hbad]
    | succ j =>
      obtain ⟨w, hw, h0, h1⟩ : okPlay p := by simpa using hprev 0 (Nat.succ_pos j)
      simp only [loadFrom, hw]
      rw [if_pos ⟨h0, h1⟩]
      have hrec := ih (k := k + 1) (i := j) (by simpa using hi) (by simpa using hsome) hbad
        (fun m hm => by simpa using hprev (m + 1) (by omega))
      simp only [hrec]
      have harith : k + 1 + j = k + (j + 1) := by omega
      rw [harith]

/-- When every record is valid the extraction loop succeeds. -/
theorem loadFrom_ok_of_all {source : List Play} : ∀ {k : ℕ},
    (∀ p ∈ source, okPlay p) → ∃ ps, loadFrom k source = .ok ps := by
  induction source with
  | nil => exact fun _ => ⟨[], rfl⟩
  | cons p rest ih =>
    intro k hall
    obtain ⟨v, hv, h0, h1⟩ := hall p (List.mem_cons_self _ _)
    obtain ⟨tl, htl⟩ := ih (k := k + 1) (fun q hq => hall q (List.mem_cons_of_mem _ hq))
    refine ⟨v :: tl, ?_⟩
    simp only [loadFrom, hv]
    rw [if_pos ⟨h0, h1⟩]
    simp only [htl]

/-- A successful extraction implies every record was valid. -/
theorem loadFrom_all_ok {source : List Play} : ∀ {k : ℕ} {ps : List ℚ},
    loadFrom k source = .ok ps → ∀ p ∈ source, okPlay p := by
  induction source with
  | nil => intro k ps _ p hp; cases hp
  | cons q rest ih =>
    intro k ps h p hp
    cases hq : hwp q with
    | none =>
      simp only [loadFrom, hq] at h
      exact Except.noConfusion h
    | some v =>
      simp only [loadFrom, hq] at h
      by_cases hv : 0 ≤ v ∧ v ≤ 1
      · rw [if_pos hv] at h
        rcases List.mem_cons.mp hp with rfl | hmem
        · exact ⟨v, hq, hv⟩
        · cases hrest : loadFrom (k + 1) rest with
          | error e =>
            simp only [hrest] at h
            exact Except.noConfusion h
          | ok tl => exact ih hrest p hmem
      · rw [if_neg hv] at h
        cases h

/-- C5: the validator raises the empty-input error on an empty payload,
the missing-field error with the index of the first record lacking the
key, the out-of-range error with the index of the first record whose
value leaves [0,1], and succeeds exactly when the payload is nonempty
and every record carries an in-range value. -/
theorem c5_validator_errors (source : List Play) :
    (source = [] → load_home_win_probabilities source = .error .emptyInput) ∧
    (∀ i, i < source.length → hwp (source.getD i ⟨none⟩) = none →
      (∀ j, j < i → okPlay (source.getD j ⟨none⟩)) →
      load_home_win_probabilities source = .error (.missingField i)) ∧
    (∀ i v, i < source.length → hwp (source.getD i ⟨none⟩) = some v →
      ¬(0 ≤ v ∧ v ≤ 1) →
      (∀ j, j < i → okPlay (source.getD j ⟨none⟩)) →
      load_home_win_probabilities source = .error (.outOfRange i)) ∧
    ((∃ ps, load_home_win_probabilities source = .ok ps) ↔
      (source ≠ [] ∧ ∀ p ∈ source, okPlay p)) := by
  refine ⟨?_, ?_, ?_, ?_, ?_⟩
  · rintro rfl
    rfl
  · intro i hi hnone hprev
    have h := loadFrom_missing (k := 0) hi hnone hprev
    rw [Nat.zero_add] at h
    simp only [load_home_win_probabilities, h]
  · intro i v hi hsome hbad hprev
    have h := loadFrom_out_of_range (k := 0) hi hsome hbad hprev
    rw [Nat.zero_add] at h
    simp only [load_home_win_probabilities, h]
  · rintro ⟨ps, hps⟩
    simp only [load_home_win_probabilities] at hps
    cases hlf : loadFrom 0 source with
    | error e =>
      simp only [hlf] at hps
      exact Except.noConfusion hps
    | ok qs =>
      simp only [hlf] at hps
      refine ⟨?_, loadFrom_all_ok hlf⟩
      rintro rfl
      cases hlf
      simp at hps
  · rintro ⟨hne, hall⟩
    obtain ⟨ps, hps⟩ := loadFrom_ok_of_all (k := 0) hall
    refine ⟨ps, ?_⟩
    simp only [load_home_win_probabilities, hps]
    have hlen : ps.length = source.length := (loadFrom_ok hps).1
    have hno : ¬(ps.isEmpty = true) := by
      rw [List.isEmpty_iff]
      intro hnil
      apply hne
      rw [hnil] at hlen
      exact List.length_eq_zero.mp hlen.symm
    rw [if_neg hno]

/-- C5 witness: concrete payloads hitting all three errors and the
success case. -/
theorem c5_validator_errors_witness :
    load_home_win_probabilities [] = .error .emptyInput ∧
    load_home_win_probabilities [⟨none⟩] = .error (.missingField 0) ∧
    load_home_win_probabilities [⟨some (1/2)⟩, ⟨some (3/2)⟩] = .error (.outOfRange 1) ∧
    (∃ ps, load_home_win_probabilities [⟨some (1/2)⟩] = .ok ps) := by
  refine ⟨(c5_validator_errors []).1 rfl,
    (c5_validator_errors [⟨none⟩]).2.1 0 (by norm_num) rfl
      (fun j hj => absurd hj (by omega)),
    (c5_validator_errors [⟨some (1/2)⟩, ⟨some (3/2)⟩]).2.2.1 1 (3/2) (by norm_num) rfl
      (by norm_num) ?_,
    (c5_validator_errors [⟨some (1/2)⟩]).2.2.2.mpr ⟨by simp, ?_⟩⟩
  · intro j hj
    have hj0 : j = 0 := by omega
    subst hj0
    exact ⟨1/2, rfl, by norm_num, by norm_num⟩
  · intro p hp
    rcases List.mem_singleton.mp hp with rfl
    exact ⟨1/2, rfl, by norm_num, by norm_num⟩

/-- C8: a successful validation drops, reorders and alters nothing: the
series has one value per record, in record order. -/
theorem c8_load_preserves (source : List Play) (ps : List ℚ)
    (h : load_home_win_probabilities source = .ok ps) :
    ps.length = source.length ∧
    ∀ i, i < source.length → hwp (source.getD i ⟨none⟩) = some (ps.getD i 0) := by
  simp only [load_home_win_probabilities] at h
  cases hlf : loadFrom 0 source with
  | error e =>
    simp only [hlf] at h
    exact Except.noConfusion h
  | ok qs =>
    simp only [hlf] at h
    by_cases he : qs.isEmpty = true
    · rw [if_pos he] at h
      cases h
    · rw [if_neg he] at h
      cases h
      exact loadFrom_ok hlf

/-- C8 witness: a concrete two-record payload is loaded value for
value. -/
theorem c8_load_preserves_witness :
    ([(1 : ℚ)/2, 3/4].length = ([⟨some (1/2)⟩, ⟨some (3/4)⟩] : List Play).length) ∧
    ∀ i, i < ([⟨some (1/2)⟩, ⟨some (3/4)⟩] : List Play).length →
      hwp (([⟨some (1/2)⟩, ⟨some (3/4)⟩] : List Play).getD i ⟨none⟩) =
        some ([(1 : ℚ)/2, 3/4].getD i 0) :=
  c8_load_preserves [⟨some (1/2)⟩, ⟨some (3/4)⟩] [1/2, 3/4]
    (by norm_num [load_home_win_probabilities, loadFrom, hwp])

/-- Adjacent-pair maps can be reindexed over `List.range`. -/
theorem adjMap_eq_range_map {α : Type} (f : ℚ → ℚ → α) (ps : List ℚ) :
    adjMap f ps =
      (List.range (ps.length - 1)).map (fun i => f (ps.getD i 0) (ps.getD (i + 1) 0)) := by
  apply List.ext_getElem
  · rw [adjMap_length, List.length_map, List.length_range]
  · intro n h1 h2
    have hn : n < ps.length - 1 := by rw [adjMap_length] at h1; exact h1
    rw [← List.getD_eq_getElem (adjMap f ps) (f 0 0) h1, adjMap_getD f (f 0 0) 0 ps n hn]
    simp only [List.getElem_map, List.getElem_range]

/-- The swing list has one entry per adjacent pair. -/
theorem swingsOf_length (ps : List ℚ) : (swingsOf ps).length = ps.length - 1 :=
  adjMap_length _ ps

/-- Every swing is an absolute value, hence nonnegative. -/
theorem swings_nonneg (ps : List ℚ) : ∀ x ∈ swingsOf ps, 0 ≤ x := by
  intro x hx
  simp only [swingsOf, adjMap] at hx
  obtain ⟨pc, _, rfl⟩ := List.mem_map.mp hx
  rw [pyAbs_eq]
  exact abs_nonneg _

/-- When all samples stay in [0,1], every swing is at most 1. -/
theorem swings_le_one {ps : List ℚ} (hin : ∀ p ∈ ps, 0 ≤ p ∧ p ≤ 1) :
    ∀ x ∈ swingsOf ps, x ≤ 1 := by
  intro x hx
  simp only [swingsOf, adjMap] at hx
  obtain ⟨pc, hpc, rfl⟩ := List.mem_map.mp hx
  obtain ⟨hprev, hcurr⟩ := List.of_mem_zip hpc
  obtain ⟨hp0, hp1⟩ := hin pc.1 hprev
  obtain ⟨hc0, hc1⟩ := hin pc.2 (List.mem_of_mem_tail hcurr)
  rw [pyAbs_eq]
  rw [abs_le]
  constructor <;> linarith

/-- The average swing is a quotient of nonnegative quantities. -/
theorem avgSwingOf_nonneg (ps : List ℚ) : 0 ≤ avgSwingOf ps :=
  div_nonneg (List.sum_nonneg (swings_nonneg ps)) (Nat.cast_nonneg _)

/-- The composite score is never negative. -/
theorem scoreOf_nonneg (ps : List ℚ) : 0 ≤ scoreOf ps := by
  have t1 : (0 : ℚ) ≤ pyMin (avgSwingOf ps / (1/25)) 1 * (5/2) := by
    rw [pyMin_eq]
    apply mul_nonneg _ (by norm_num)
    exact le_min (div_nonneg (avgSwingOf_nonneg ps) (by norm_num)) (by norm_num)
  have t2 : (0 : ℚ) ≤ pyMin (maxSwingOf ps / (9/50)) 1 * (5/2) := by
    rw [pyMin_eq]
    apply mul_nonneg _ (by norm_num)
    exact le_min (div_nonneg (listMax_nonneg _) (by norm_num)) (by norm_num)
  have t3 : (0 : ℚ) ≤ pyMin ((leadChangesOf ps : ℚ) / 3) 1 * 3 := by
    rw [pyMin_eq]
    apply mul_nonneg _ (by norm_num)
    exact le_min (div_nonneg (Nat.cast_nonneg _) (by norm_num)) (by norm_num)
  have t4 : (0 : ℚ) ≤ pyMin (closeRatioOf ps / (9/20)) 1 * 2 := by
    rw [pyMin_eq]
    apply mul_nonneg _ (by norm_num)
    refine le_min (div_nonneg (div_nonneg ?_ ?_) (by norm_num)) (by norm_num)
    · exact Nat.cast_nonneg _
    · exact Nat.cast_nonneg _
  rw [scoreOf, pyMin_eq]
  exact le_min (by linarith) (by norm_num)

/-- The composite score is clamped to at most 10. -/
theorem scoreOf_le_ten (ps : List ℚ) : scoreOf ps ≤ 10 := by
  rw [scoreOf, pyMin_eq]
  exact min_le_right _ _

/-- C2: on every series of length at least two, the scorer returns a
record whose swing list is the length-(n-1) sequence of absolute adjacent
differences, whose avg_swing is their arithmetic mean, whose max_swing is
their maximum, whose lead_changes counts the adjacent pairs where the
side at or above 0.5 flips, and whose close_ratio is the fraction of all
samples inside [0.45, 0.55]. -/
theorem c2_metric_formulas (ps : List ℚ) (h2 : 2 ≤ ps.length) :
    ∃ s v lc avg mx cr, calculate_excitement ps = .ok ⟨s, v, lc, avg, mx, cr⟩ ∧
      (swingsOf ps).length = ps.length - 1 ∧
      (∀ i, i < ps.length - 1 →
        (swingsOf ps).getD i 0 = |ps.getD (i + 1) 0 - ps.getD i 0|) ∧
      avg = (swingsOf ps).sum / ((ps.length - 1 : ℕ) : ℚ) ∧
      mx ∈ swingsOf ps ∧ (∀ x ∈ swingsOf ps, x ≤ mx) ∧
      lc = (List.range (ps.length - 1)).countP
        (fun i => decide ((1/2 : ℚ) ≤ ps.getD i 0) !=
          decide ((1/2 : ℚ) ≤ ps.getD (i + 1) 0)) ∧
      cr = (ps.countP (fun p => decide ((9/20 : ℚ) ≤ p ∧ p ≤ 11/20)) : ℚ) /
        (ps.length : ℚ) := by
  have hlen : (swingsOf ps).length = ps.length - 1 := swingsOf_length ps
  have hne : swingsOf ps ≠ [] := by
    intro hnil
    rw [hnil] at hlen
    simp at hlen
    omega
  refine ⟨scoreOf ps, verdictOf ps, leadChangesOf ps, avgSwingOf ps, maxSwingOf ps,
    closeRatioOf ps, ?_, hlen, ?_, ?_, ?_, ?_, ?_, rfl⟩
  · rw [calculate_excitement, if_neg (by omega)]
    rfl
  · intro i hi
    rw [swingsOf, adjMap_getD _ 0 0 ps i hi, pyAbs_eq]
  · rw [avgSwingOf, hlen]
  · exact listMax_mem hne (swings_nonneg ps)
  · exact fun x hx => le_listMax hx
  · rw [leadChangesOf, leadPairsOf, adjMap_eq_range_map, List.count_eq_countP,
      List.countP_map]
    congr 1
    funext i
    simp [Function.comp]

/-- C2 witness: the general metric formulas evaluated on [0.5, 0.9]. -/
theorem c2_metric_formulas_witness :
    ∃ s v lc avg mx cr,
      calculate_excitement [(1 : ℚ)/2, 9/10] = .ok ⟨s, v, lc, avg, mx, cr⟩ ∧
      (swingsOf [(1 : ℚ)/2, 9/10]).length = [(1 : ℚ)/2, 9/10].length - 1 ∧
      (∀ i, i < [(1 : ℚ)/2, 9/10].length - 1 →
        (swingsOf [(1 : ℚ)/2, 9/10]).getD i 0 =
          |[(1 : ℚ)/2, 9/10].getD (i + 1) 0 - [(1 : ℚ)/2, 9/10].getD i 0|) ∧
      avg = (swingsOf [(1 : ℚ)/2, 9/10]).sum / (([(1 : ℚ)/2, 9/10].length - 1 : ℕ) : ℚ) ∧
      mx ∈ swingsOf [(1 : ℚ)/2, 9/10] ∧
      (∀ x ∈ swingsOf [(1 : ℚ)/2, 9/10], x ≤ mx) ∧
      lc = (List.range ([(1 : ℚ)/2, 9/10].length - 1)).countP
        (fun i => decide ((1/2 : ℚ) ≤ [(1 : ℚ)/2, 9/10].getD i 0) !=
          decide ((1/2 : ℚ) ≤ [(1 : ℚ)/2, 9/10].getD (i + 1) 0)) ∧
      cr = ([(1 : ℚ)/2, 9/10].countP
          (fun p => decide ((9/20 : ℚ) ≤ p ∧ p ≤ 11/20)) : ℚ) /
        ([(1 : ℚ)/2, 9/10].length : ℚ) :=
  c2_metric_formulas [1/2, 9/10] (by norm_num)

/-- C3: on every valid series of length at least two, the computed score
lies in [0,10] and the verdict is the label picked by the fixed
thresholds on the clamped score. -/
theorem c3_score_bounds_verdict (ps : List ℚ) (h2 : 2 ≤ ps.length)
    (_hin : ∀ p ∈ ps, 0 ≤ p ∧ p ≤ 1) :
    ∃ s v lc avg mx cr, calculate_excitement ps = .ok ⟨s, v, lc, avg, mx, cr⟩ ∧
      0 ≤ s ∧ s ≤ 10 ∧
      (v = "Exciting" ↔ 13/2 ≤ s) ∧
      (v = "Worth a look" ↔ 4 ≤ s ∧ s < 13/2) ∧
      (v = "Skip it" ↔ s < 4) := by
  refine ⟨scoreOf ps, verdictOf ps, leadChangesOf ps, avgSwingOf ps, maxSwingOf ps,
    closeRatioOf ps, ?_, scoreOf_nonneg ps, scoreOf_le_ten ps, ?_, ?_, ?_⟩
  · rw [calculate_excitement, if_neg (by omega)]
    rfl
  · rw [verdictOf]
    split_ifs with hc1 hc2
    · exact iff_of_true rfl hc1
    · exact iff_of_false (by decide) hc1
    · exact iff_of_false (by decide) hc1
  · rw [verdictOf]
    split_ifs with hc1 hc2
    · refine iff_of_false (by decide) ?_
      rintro ⟨-, hlt⟩
      exact absurd hc1 (not_le.mpr hlt)
    · exact iff_of_true rfl ⟨hc2, lt_of_not_le hc1⟩
    · refine iff_of_false (by decide) ?_
      rintro ⟨h4, -⟩
      exact hc2 h4
  · rw [verdictOf]
    split_ifs with hc1 hc2
    · exact iff_of_false (by decide) (not_lt.mpr (le_trans (by norm_num) hc1))
    · exact iff_of_false (by decide) (not_lt.mpr hc2)
    · exact iff_of_true rfl (lt_of_not_le hc2)

/-- C3 witness: score bounds and verdict thresholds on [0.5, 0.9]. -/
theorem c3_score_bounds_verdict_witness :
    ∃ s v lc avg mx cr,
      calculate_excitement [(1 : ℚ)/2, 9/10] = .ok ⟨s, v, lc, avg, mx, cr⟩ ∧
      0 ≤ s ∧ s ≤ 10 ∧
      (v = "Exciting" ↔ 13/2 ≤ s) ∧
      (v = "Worth a look" ↔ 4 ≤ s ∧ s < 13/2) ∧
      (v = "Skip it" ↔ s < 4) :=
  c3_score_bounds_verdict [1/2, 9/10] (by norm_num)
    (by norm_num [List.forall_mem_cons])

/-- C9: on every valid series of length at least two, the average swing
is at most the maximum swing, which is at most 1. -/
theorem c9_avg_le_max_le_one (ps : List ℚ) (h2 : 2 ≤ ps.length)
    (hin : ∀ p ∈ ps, 0 ≤ p ∧ p ≤ 1) :
    ∃ s v lc avg mx cr, calculate_excitement ps = .ok ⟨s, v, lc, avg, mx, cr⟩ ∧
      avg ≤ mx ∧ mx ≤ 1 := by
  have hlen : (swingsOf ps).length = ps.length - 1 := swingsOf_length ps
  refine ⟨scoreOf ps, verdictOf ps, leadChangesOf ps, avgSwingOf ps, maxSwingOf ps,
    closeRatioOf ps, ?_, ?_, ?_⟩
  · rw [calculate_excitement, if_neg (by omega)]
    rfl
  · have hpos : (0 : ℚ) < ((swingsOf ps).length : ℚ) := by
      rw [hlen]
      have : 0 < ps.length - 1 := by omega
      exact_mod_cast this
    rw [avgSwingOf, maxSwingOf, div_le_iff₀ hpos]
    have hsum := List.sum_le_card_nsmul (swingsOf ps) (listMax (swingsOf ps))
      (fun x hx => le_listMax hx)
    rw [nsmul_eq_mul] at hsum
    linarith [hsum]
  · exact listMax_le (by norm_num) (swings_le_one hin)

/-- C9 witness: the swing bounds on the series [0, 1]. -/
theorem c9_avg_le_max_le_one_witness :
    ∃ s v lc avg mx cr,
      calculate_excitement [(0 : ℚ), 1] = .ok ⟨s, v, lc, avg, mx, cr⟩ ∧
      avg ≤ mx ∧ mx ≤ 1 :=
  c9_avg_le_max_le_one [0, 1] (by norm_num) (by norm_num [List.forall_mem_cons])

/-- Two lists agreeing in length and at every in-bounds `getD` position
are equal. -/
theorem List_ext_getD {α : Type} (d : α) {l1 l2 : List α} (hlen : l1.length = l2.length)
    (h : ∀ n, n < l1.length → l1.getD n d = l2.getD n d) : l1 = l2 := by
  apply List.ext_getElem hlen
  intro n h1 h2
  have hd := h n h1
  rwa [List.getD_eq_getElem _ _ h1, List.getD_eq_getElem _ _ h2] at hd

/-- Reversal flips in-bounds `getD` indices. -/
theorem getD_reverse {α : Type} (d : α) (l : List α) (n : ℕ) (h : n < l.length) :
    l.reverse.getD n d = l.getD (l.length - 1 - n) d := by
  have h1 : n < l.reverse.length := by rw [List.length_reverse]; exact h
  have h2 : l.length - 1 - n < l.length := by omega
  rw [List.getD_eq_getElem _ _ h1, List.getD_eq_getElem _ _ h2, List.getElem_reverse]

/-- Boolean inequality is symmetric. -/
theorem bne_symm_bool (x y : Bool) : (x != y) = (y != x) := by
  cases x <;> cases y <;> rfl

/-- For a symmetric pair function, the adjacent-pair map of a reversed
series is the reversed adjacent-pair map. -/
theorem adjMap_reverse {α : Type} (f : ℚ → ℚ → α) (hf : ∀ a b, f a b = f b a)
    (ps : List ℚ) : adjMap f ps.reverse = (adjMap f ps).reverse := by
  have hlen : (adjMap f ps.reverse).length = ((adjMap f ps).reverse).length := by
    rw [adjMap_length, List.length_reverse, List.length_reverse, adjMap_length]
  apply List_ext_getD (f 0 0) hlen
  intro n hn
  have hn1 : n < ps.length - 1 := by
    rw [adjMap_length, List.length_reverse] at hn
    exact hn
  have hrn : n < ps.reverse.length - 1 := by rw [List.length_reverse]; exact hn1
  have hadj : n < (adjMap f ps).length := by rw [adjMap_length]; exact hn1
  rw [adjMap_getD f (f 0 0) 0 _ n hrn,
    getD_reverse 0 ps n (by omega), getD_reverse 0 ps (n + 1) (by omega),
    getD_reverse (f 0 0) (adjMap f ps) n hadj, adjMap_length,
    adjMap_getD f (f 0 0) 0 ps (ps.length - 1 - 1 - n) (by omega)]
  have e1 : ps.length - 1 - n = (ps.length - 1 - 1 - n) + 1 := by omega
  have e2 : ps.length - 1 - (n + 1) = ps.length - 1 - 1 - n := by omega
  rw [e1, e2]
  exact hf _ _

/-- Swings of a reversed series are the reversed swings. -/
theorem swingsOf_reverse (ps : List ℚ) : swingsOf ps.reverse = (swingsOf ps).reverse :=
  adjMap_reverse _ (fun _ _ => by rw [pyAbs_eq, pyAbs_eq, abs_sub_comm]) ps

/-- Lead-flip flags of a reversed series are the reversed flags. -/
theorem leadPairsOf_reverse (ps : List ℚ) :
    leadPairsOf ps.reverse = (leadPairsOf ps).reverse :=
  adjMap_reverse _ (fun _ _ => bne_symm_bool _ _) ps

/-- The fold modelling Python's `max` ignores the order of the list. -/
theorem listMax_reverse (l : List ℚ) : listMax l.reverse = listMax l :=
  le_antisymm
    (listMax_le (listMax_nonneg l) (fun _ hx => le_listMax (List.mem_reverse.mp hx)))
    (listMax_le (listMax_nonneg l.reverse)
      (fun _ hx => le_listMax (List.mem_reverse.mpr hx)))

/-- C10: scoring a reversed series gives exactly the same analysis
(score, verdict, lead_changes, avg_swing, max_swing and close_ratio), and
the same error when the series is too short. -/
theorem c10_reverse_invariant (ps : List ℚ) :
    calculate_excitement ps.reverse = calculate_excitement ps := by
  have hsw : swingsOf ps.reverse = (swingsOf ps).reverse := swingsOf_reverse ps
  have havg : avgSwingOf ps.reverse = avgSwingOf ps := by
    rw [avgSwingOf, avgSwingOf, hsw, List.sum_reverse, List.length_reverse]
  have hmax : maxSwingOf ps.reverse = maxSwingOf ps := by
    rw [maxSwingOf, maxSwingOf, hsw, listMax_reverse]
  have hlead : leadChangesOf ps.reverse = leadChangesOf ps := by
    rw [leadChangesOf, leadChangesOf, leadPairsOf_reverse, List.count_reverse]
  have hclose : closeRatioOf ps.reverse = closeRatioOf ps := by
    rw [closeRatioOf, closeRatioOf, closeCount, closeCount, List.countP_reverse,
      List.length_reverse]
  have hscore : scoreOf ps.reverse = scoreOf ps := by
    rw [scoreOf, scoreOf, havg, hmax, hlead, hclose]
  have hverdict : verdictOf ps.reverse = verdictOf ps := by
    rw [verdictOf, verdictOf, hscore]
  rw [calculate_excitement, calculate_excitement, List.length_reverse]
  by_cases h : ps.length < 2
  · rw [if_pos h, if_pos h]
  · rw [if_neg h, if_neg h, analyze, analyze, hscore, hverdict, hlead, havg, hmax, hclose]

/-- Descending order on ranked entries: the later entry's score does not
exceed the earlier entry's score. -/
def scoreDesc (a b : String × ExcitementAnalysis) : Prop :=
  b.2.score ≤ a.2.score

/-- Membership in a stable insertion. -/
theorem mem_insertRanked {x y : String × ExcitementAnalysis}
    {l : List (String × ExcitementAnalysis)} :
    y ∈ insertRanked x l ↔ y = x ∨ y ∈ l := by
  induction l with
  | nil => simp [insertRanked]
  | cons a t ih =>
    rw [insertRanked]
    split_ifs with h
    · simp [List.mem_cons]
    · simp only [List.mem_cons, ih]
      tauto

/-- Stable insertion preserves descending order. -/
theorem pairwise_insertRanked {x : String × ExcitementAnalysis}
    {l : List (String × ExcitementAnalysis)} (hl : List.Pairwise scoreDesc l) :
    List.Pairwise scoreDesc (insertRanked x l) := by
  induction l with
  | nil => simp [insertRanked, List.pairwise_singleton]
  | cons a t ih =>
    obtain ⟨ha, ht⟩ := List.pairwise_cons.mp hl
    rw [insertRanked]
    split_ifs with h
    · refine List.pairwise_cons.mpr ⟨?_, hl⟩
      intro b hb
      rcases List.mem_cons.mp hb with rfl | hbt
      · exact h
      · exact le_trans (ha b hbt) h
    · refine List.pairwise_cons.mpr ⟨?_, ih ht⟩
      intro b hb
      rcases mem_insertRanked.mp hb with rfl | hbt
      · exact le_of_lt (lt_of_not_le h)
      · exact ha b hbt

/-- The stable sort produces a descending list. -/
theorem rankGames_pairwise (l : List (String × ExcitementAnalysis)) :
    List.Pairwise scoreDesc (rankGames l) := by
  induction l with
  | nil => exact List.Pairwise.nil
  | cons x xs ih => exact pairwise_insertRanked ih

/-- Restricting a stable insertion to one score value either prepends the
inserted entry (when it has that score) or changes nothing. -/
theorem filter_insertRanked (x : String × ExcitementAnalysis)
    (l : List (String × ExcitementAnalysis)) (s : ℚ) :
    (insertRanked x l).filter (fun g => decide (g.2.score = s)) =
      if x.2.score = s then x :: l.filter (fun g => decide (g.2.score = s))
      else l.filter (fun g => decide (g.2.score = s)) := by
  induction l with
  | nil =>
    rw [insertRanked]
    by_cases hx : x.2.score = s
    · rw [if_pos hx]
      simp [List.filter_cons, hx]
    · rw [if_neg hx]
      simp [List.filter_cons, hx]
  | cons a t ih =>
    rw [insertRanked]
    by_cases h : a.2.score ≤ x.2.score
    · rw [if_pos h]
      by_cases hx : x.2.score = s
      · rw [if_pos hx]
        simp [List.filter_cons, hx]
      · rw [if_neg hx]
        simp [List.filter_cons, hx]
    · rw [if_neg h]
      by_cases hx : x.2.score = s
      · rw [if_pos hx]
        have ha : ¬(a.2.score = s) := fun has => h (le_of_eq (by rw [has, hx]))
        rw [if_pos hx] at ih
        simp [List.filter_cons, ha, ih]
      · rw [if_neg hx]
        rw [if_neg hx] at ih
        simp [List.filter_cons, ih]

/-- The stable sort leaves each equal-score class in its input order. -/
theorem rankGames_filter (l : List (String × ExcitementAnalysis)) (s : ℚ) :
    (rankGames l).filter (fun g => decide (g.2.score = s)) =
      l.filter (fun g => decide (g.2.score = s)) := by
  induction l with
  | nil => rfl
  | cons x xs ih =>
    rw [rankGames, filter_insertRanked]
    by_cases hx : x.2.score = s
    · simp [List.filter_cons, hx, ih]
    · simp [List.filter_cons, hx, ih]

/-- C4: the per-date ranking sorts the successfully scored games by score
descending, and within each equal-score class the ranked output keeps
exactly the order in which the games were scored from the input batch
(stability of Python's sort). -/
theorem c4_rank_desc_stable (games : List (String × List Play)) :
    List.Pairwise scoreDesc (rankBatch games) ∧
    ∀ s : ℚ, (rankBatch games).filter (fun g => decide (g.2.score = s)) =
      (processBatch games).1.filter (fun g => decide (g.2.score = s)) :=
  ⟨rankGames_pairwise _, fun s => rankGames_filter _ s⟩

/-- C7: on a batch whose first game has a single-sample series (which
loads fine but cannot be scored), the weekly ranker's loop propagates the
insufficient-data error and aborts, never ranking the perfectly scorable
second game, while the daily ranker's loop skips the first game with a
reason and still ranks the second. -/
theorem c7_weekly_scoring_uncaught :
    processBatchWeekly
        [("g1", [⟨some (1/2)⟩]), ("g2", [⟨some (1/2)⟩, ⟨some (9/10)⟩])] =
      .error .insufficientData ∧
    processBatch
        [("g1", [⟨some (1/2)⟩]), ("g2", [⟨some (1/2)⟩, ⟨some (9/10)⟩])] =
      ([("g2", analyze [1/2, 9/10])],
        [("g1", SkipReason.calcFailed .insufficientData)]) := by
  constructor
  · norm_num [processBatchWeekly, load_home_win_probabilities, loadFrom, hwp,
      calculate_excitement, List.isEmpty]
  · norm_num [processBatch, scoreGame, load_home_win_probabilities, loadFrom, hwp,
      calculate_excitement, List.isEmpty]

end WatchWorthy
